import Mathlib

/-!
Verification development for the blobfs synchronizing content-addressed
filesystem (`cmd/blobfs-mount/blobfs-mount.go` and `pkg/cache/cache.go`).

The Go source is shallowly embedded: each relevant Go function is translated
into an executable Lean definition operating on explicit state values.
Go maps are modelled as association lists (first-match lookup, unique keys
where the Go map guarantees them), Go slices as `List`, byte buffers as
`List Nat`, and fallible operations return `Except`.  The content hash of a
node is idealised as the node's canonical encoding itself (a collision-free
model of SHA over the canonical JSON produced by `meta.Json`, which is
deterministic in the encoded fields and keeps the child references as an
ordered JSON array).

The file is organised as definitions first, then the theorems about them.
-/

namespace Blobfs

/-! ## Definitions -/

/-- Model of `meta.Meta` (the node attribute record): name, type,
permission bits, modification time, size, extended attributes and the
ordered list of child references, as consumed by `Dir.Save`,
`Dir.Create`, the xattr handlers and the merge logic. -/
structure Meta where
  name : String
  ty : String
  mode : Nat
  modTime : String
  size : Nat
  xattrs : List (String × String)
  refs : List String
  deriving DecidableEq, Repr

/-- The canonical encoding of a `Meta`, standing for the content hash.
`meta.Json` marshals the attribute record with `Refs` as an ordered JSON
array, and the hash is the hash of those bytes; we idealise the hash as the
encoded content itself (collision-freeness assumption), so two metas have
the same hash exactly when their encoded fields, including the order of
`refs`, coincide. -/
structure HashVal where
  name : String
  ty : String
  mode : Nat
  modTime : String
  size : Nat
  xattrs : List (String × String)
  refs : List String
  deriving DecidableEq, Repr

/-- The hash/encode step `mhash, mjs := m.Json()` of `Dir.Save`. -/
def metaHash (m : Meta) : HashVal :=
  ⟨m.name, m.ty, m.mode, m.modTime, m.size, m.xattrs, m.refs⟩

/-- The `uint32(os.ModeDir | 0555)` constant used by `Dir.Save`
(the numeric value is irrelevant to every property proved below). -/
def dirModeBits : Nat := 2147483648 + 0o555

/-- The meta-rebuild step of `Dir.Save`: a fresh `meta.NewMeta()` is
populated with the directory's name, type `"dir"`, the fixed directory
mode, the previous modification time (or `now` when it was empty), and one
`AddRef` per entry of the live child collection, in the order the
collection is iterated.  No sort is applied to `childRefs`. -/
def dirSaveRebuild (dmeta : Meta) (now : String) (childRefs : List String) : Meta :=
  { name := dmeta.name
    ty := "dir"
    mode := dirModeBits
    modTime := if dmeta.modTime ≠ "" then dmeta.modTime else now
    size := 0
    xattrs := []
    refs := childRefs }

/-- State touched by the root case of `Dir.Save`: the directory's current
meta, the two tiers of the Content Store (blobs keyed by hash), the local
WIP version track (`local:root:<name>` in the local vkv store, newest
first) and the active local `Mount` (root hash and version). -/
structure SaveState where
  dirMeta : Meta
  localStore : List HashVal
  remoteStore : List HashVal
  wipTrack : List (HashVal × Nat)
  localMount : Option (HashVal × Nat)
  deriving DecidableEq, Repr

/-- `Cache.Stat`: checks the local tier and falls back to the remote tier. -/
def cacheStat (st : SaveState) (h : HashVal) : Bool :=
  h ∈ st.localStore || h ∈ st.remoteStore

/-- The no-parent (root) case of `Dir.Save`, called with the hashes of the
directory's current children in iteration order: rebuild the meta, hash it,
`Put` the blob unless `Stat` reports it already exists, then unconditionally
commit a new version entry to the local WIP track (`lkv.Put` with version
`-1`, i.e. auto-increment) and set the result as the active local Mount. -/
def dirSaveRoot (now : String) (childRefs : List String) (st : SaveState) : SaveState :=
  let m := dirSaveRebuild st.dirMeta now childRefs
  let mhash := metaHash m
  let localStore1 := if cacheStat st mhash then st.localStore else mhash :: st.localStore
  let version := st.wipTrack.length + 1
  { dirMeta := m
    localStore := localStore1
    remoteStore := st.remoteStore
    wipTrack := (mhash, version) :: st.wipTrack
    localMount := some (mhash, version) }

/-- A directory meta with two file children whose hashes are `"a"` and
`"b"`, iterated out of the child map in the order `a, b`. -/
def c1MetaAB : Meta := dirSaveRebuild ⟨"d", "dir", dirModeBits, "t0", 0, [], []⟩ "t0" ["a", "b"]

/-- The same directory content with the children iterated `b, a`. -/
def c1MetaBA : Meta := dirSaveRebuild ⟨"d", "dir", dirModeBits, "t0", 0, [], []⟩ "t0" ["b", "a"]

/-- Model of `root.Root` (`pkg/root`, consumed here only as a record).
Modelled from the spec: `Root` is {content hash of root Dir, monotonically
increasing version number, optional comment} (§3). -/
structure RootRec where
  ref : String
  version : Nat
  comment : String
  deriving DecidableEq, Repr

/-- Model of `Mount`: immutability flag, root metadata and the root `Dir`
node (the in-memory `*Dir` pointer is modelled by a numeric node id). -/
structure MountM where
  immutable : Bool
  root : RootRec
  node : Nat
  deriving DecidableEq, Repr

/-- `FS.Mount`: if the local mount exists it is returned when the remote
mount is absent or the local root version is strictly greater; otherwise
the remote mount (possibly `none`) is returned. -/
def fsMount (localM remoteM : Option MountM) : Option MountM :=
  match localM with
  | some l =>
    match remoteM with
    | none => some l
    | some r => if l.root.version > r.root.version then some l else some r
  | none => remoteM

/-- Outcome of the guard at the top of `FS.Push`: `noop` models the early
`return nil` (nothing uploaded, nothing committed — the guard runs before
any store or kv access), `panicked` models the nil-pointer dereference in
`f.Mount().root.Ref != f.local.root.Ref`, and `proceeded` means control
reaches the upload-and-commit body. -/
inductive PushOutcome where
  | noop
  | panicked
  | proceeded
  deriving DecidableEq, Repr

/-- The opening of `FS.Push`: evaluate `f.Mount().root.Ref !=
f.local.root.Ref`; dereferencing a nil active mount or a nil `f.local`
panics, a differing ref returns `nil` immediately, and an equal ref falls
through to the body. -/
def pushGate (localM remoteM : Option MountM) : PushOutcome :=
  match fsMount localM remoteM with
  | none => .panicked
  | some m =>
    match localM with
    | none => .panicked
    | some l => if m.root.ref ≠ l.root.ref then .noop else .proceeded

/-- First-match lookup in an association list, the model of a Go map
read. -/
def lookupAssoc {α : Type} : List (String × α) → String → Option α
  | [], _ => none
  | (k, v) :: rest, q => if k = q then some v else lookupAssoc rest q

/-- Error surfaced by `Cache.Get` when the blob is absent from both
tiers (`clientutil.ErrBlobNotFound`). -/
inductive CacheErr where
  | blobNotFound
  deriving DecidableEq, Repr

/-- `Cache.Get`: try the local tier; on `ErrBlobNotFound` fetch from the
remote blobstore, save the blob locally for future fetches, and return
it; a remote miss propagates the error.  The remote tier is an external
server modelled as a read-only map; the local tier is returned updated. -/
def cacheGet (remote : String → Option (List Nat)) (localTier : List (String × List Nat))
    (h : String) : Except CacheErr (List Nat × List (String × List Nat)) :=
  match lookupAssoc localTier h with
  | some blob => .ok (blob, localTier)
  | none =>
    match remote h with
    | some blob => .ok (blob, (h, blob) :: localTier)
    | none => .error .blobNotFound

/-- `maxInt = int(^uint(0) >> 1)` on a 64-bit platform. -/
def maxInt : Nat := 2 ^ 63 - 1

/-- Result of `File.Write`: `eperm` for the immutable-mount rejection,
`efbig` for `fuse.Errno(syscall.EFBIG)` on address overflow, `panicked`
for the runtime slice-bounds panic raised by `f.data[req.Offset:]` when
the offset exceeds the buffer length, and `ok size data` for the success
path (`resp.Size` and the updated buffer). -/
inductive WriteResult where
  | eperm
  | efbig
  | panicked
  | ok (size : Nat) (data : List Nat)
  deriving DecidableEq, Repr

/-- Go's builtin `copy(data[off:], req)` for `off ≤ data.length`: copies
`min (len req) (len data - off)` bytes over the buffer tail and returns
the count together with the updated buffer. -/
def goCopyInto (data : List Nat) (off : Nat) (req : List Nat) : Nat × List Nat :=
  (min req.length (data.length - off),
    data.take off ++ req.take (min req.length (data.length - off))
      ++ data.drop (off + min req.length (data.length - off)))

/-- `File.Write`: reject under an immutable mount; reject with `EFBIG`
when `req.Offset + len(req.Data)` exceeds `maxInt`; then
`n := copy(f.data[req.Offset:], req.Data)` (which panics when the offset
lies strictly beyond the buffer end) and, if `n < len(req.Data)`, append
the remaining bytes; report `resp.Size = len(req.Data)`. -/
def fileWrite (immutable : Bool) (data : List Nat) (off : Nat) (req : List Nat) : WriteResult :=
  if immutable then .eperm
  else if off + req.length > maxInt then .efbig
  else if off > data.length then .panicked
  else if (goCopyInto data off req).1 < req.length then
    .ok req.length ((goCopyInto data off req).2 ++ req.drop (goCopyInto data off req).1)
  else .ok req.length (goCopyInto data off req).2

/-- Error codes returned by the kernel-facing directory/file operations. -/
inductive FuseErr where
  | eperm
  | eexist
  | enoent
  | eio
  | enoxattr
  deriving DecidableEq, Repr

/-- The keys of the `virtualXAttrs` map (`"ref"` and `"url"`; the write
paths only test key existence). -/
def isVirtualXAttr (name : String) : Bool :=
  name == "ref" || name == "url"

/-- Go map assignment on a string-keyed map modelled as an association
list: replace the value of an existing key, else append the new pair. -/
def setPair : List (String × String) → String → String → List (String × String)
  | [], k, v => [(k, v)]
  | (k0, v0) :: rest, k, v => if k0 = k then (k, v) :: rest else (k0, v0) :: setPair rest k v

/-- Go `delete` on a string-keyed map modelled as an association list. -/
def delPair : List (String × String) → String → List (String × String)
  | [], _ => []
  | (k0, v0) :: rest, k => if k0 = k then delPair rest k else (k0, v0) :: delPair rest k

/-- In-memory node tree: `File` carries its meta, `Dir` carries its meta
and the name-keyed child map (`Dir.Children`). -/
inductive TNode where
  | file (m : Meta)
  | dir (m : Meta) (children : List (String × TNode))

/-- The `map[string]Node` child collection of a `Dir`. -/
abbrev Children := List (String × TNode)

/-- Go map read `child, ok := node.Children[p]`. -/
def lookupChild : Children → String → Option TNode
  | [], _ => none
  | (k, c) :: rest, q => if k = q then some c else lookupChild rest q

/-- Go map assignment `node.Children[p] = n` (replace or append). -/
def setChild : Children → String → TNode → Children
  | [], q, n => [(q, n)]
  | (k, c) :: rest, q, n => if k = q then (q, n) :: rest else (k, c) :: setChild rest q n

/-- Go `delete(d.Children, name)`. -/
def removeChild : Children → String → Children
  | [], _ => []
  | (k, c) :: rest, q => if k = q then removeChild rest q else (k, c) :: removeChild rest q

/-- The xattr update applied by `makePublic` to one node's meta: value
`"1"` sets the `"public"` attribute, any other value deletes it. -/
def setPub (value : String) (m : Meta) : Meta :=
  if value = "1" then { m with xattrs := setPair m.xattrs "public" value }
  else { m with xattrs := delPair m.xattrs "public" }

mutual

/-- `makePublic`: set or clear the `"public"` attribute on a node and,
for directories, recursively on every child. -/
def makePublic (value : String) : TNode → TNode
  | .file m => .file (setPub value m)
  | .dir m cs => .dir (setPub value m) (makePublicChildren value cs)

/-- The recursion of `makePublic` over a directory's child map. -/
def makePublicChildren (value : String) : Children → Children
  | [] => []
  | (k, c) :: rest => (k, makePublic value c) :: makePublicChildren value rest

end

/-- `node.Meta().XAttrs[name] = value` on either node kind. -/
def setNodeXattr : TNode → String → String → TNode
  | .file m, k, v => .file { m with xattrs := setPair m.xattrs k v }
  | .dir m cs, k, v => .dir { m with xattrs := setPair m.xattrs k v } cs

/-- `File.Setxattr`: under an immutable mount it returns `nil`
immediately (success, no mutation); virtual attribute names are silently
ignored; otherwise the attribute is set on the file's meta (and `Save`
propagates upward, which leaves the file's meta itself unchanged). -/
def fileSetxattr (immutable : Bool) (m : Meta) (name value : String) : Except FuseErr Meta :=
  if immutable then .ok m
  else if isVirtualXAttr name then .ok m
  else .ok { m with xattrs := setPair m.xattrs name value }

/-- `Dir.Setxattr` applied to a directory node: there is NO immutability
check in the source (the flag is accepted here only to record that the
result does not depend on it); `"public"` triggers the recursive
`makePublic`, virtual attribute names are ignored, and any other name is
set on the directory's meta before `d.Save()`. -/
def dirSetxattr (_immutable : Bool) (d : TNode) (name value : String) : Except FuseErr TNode :=
  if name = "public" then .ok (makePublic value d)
  else if isVirtualXAttr name then .ok d
  else .ok (setNodeXattr d name value)

/-- `Dir.Mkdir`: reject with `EPERM` under an immutable mount, reject
with `EEXIST` when the name is taken, else create an empty directory
child whose meta is rebuilt by its `Save` and install it in the parent's
child map. -/
def dirMkdir (immutable : Bool) (now : String) (cs : Children) (name : String) :
    Except FuseErr Children :=
  if immutable then .error .eperm
  else match lookupChild cs name with
    | some _ => .error .eexist
    | none =>
      .ok (setChild cs name (.dir (dirSaveRebuild ⟨name, "", 0, "", 0, [], []⟩ now []) []))

/-- `Dir.Create`: reject with `EPERM` under an immutable mount, else
build a fresh file meta (type `"file"`, requested name and mode, current
time, the `"public"` flag inherited from a public parent) and assign it
into the parent's child map (no existence check: an existing child is
overwritten by the map assignment). -/
def dirCreate (immutable : Bool) (now : String) (parentPublic : Bool) (cs : Children)
    (name : String) (mode : Nat) : Except FuseErr Children :=
  if immutable then .error .eperm
  else
    .ok (setChild cs name
      (.file ⟨name, "file", mode, now, 0, if parentPublic then [("public", "1")] else [], []⟩))

/-- `Dir.Remove`: reject with `EPERM` under an immutable mount, else
`delete(d.Children, req.Name)` (no error when the name is absent) and
save. -/
def dirRemove (immutable : Bool) (cs : Children) (name : String) : Except FuseErr Children :=
  if immutable then .error .eperm
  else .ok (removeChild cs name)

/-- A concrete file meta used by the C4 counterexample. -/
def c4FileMeta : Meta := ⟨"f", "file", 420, "t", 0, [], []⟩

/-- Model of Go `strings.Split` for a one-character separator: scan the
character list, cutting a new segment at every separator occurrence
(accumulator holds the current segment reversed). -/
def goSplitAux (sep : Char) : List Char → List Char → List String
  | acc, [] => [String.mk acc.reverse]
  | acc, c :: rest =>
    if c = sep then String.mk acc.reverse :: goSplitAux sep [] rest
    else goSplitAux sep (c :: acc) rest

/-- `strings.Split(s, sep)` for a one-character separator. -/
def goSplit (sep : Char) (s : String) : List String := goSplitAux sep [] s.data

/-- `len(strings.Split(path, "/"))`, the sort key of `ByLength.Less`. -/
def segCount (p : String) : Nat := (goSplit '/' p).length

/-- Model of `DiffNode`: a full path and the content hash recorded for
it. -/
structure DiffNodeM where
  path : String
  hash : String
  deriving DecidableEq, Repr

/-- Model of `Diff`. -/
structure DiffM where
  added : List DiffNodeM
  conflicted : List DiffNodeM
  deletedCandidates : List DiffNodeM
  deriving DecidableEq, Repr

/-- `ByLength.Less(i, j)` as a relation suitable for sorting: entry `a`
may precede entry `b` when `b`'s path has at most as many segments as
`a`'s (descending segment count). -/
def byLengthRel (a b : DiffNodeM) : Prop := segCount b.path ≤ segCount a.path

instance : DecidableRel byLengthRel := fun _ _ => Nat.decLe _ _

instance : IsTotal DiffNodeM byLengthRel :=
  ⟨fun a b => Nat.le_total (segCount b.path) (segCount a.path)⟩

instance : IsTrans DiffNodeM byLengthRel :=
  ⟨fun _ _ _ hab hbc => Nat.le_trans hbc hab⟩

/-- `sort.Sort(ByLength(diff.DeletedCandidates))` modelled by insertion
sort with respect to the same comparison (the slice ends up sorted by
descending segment count and is a permutation of the input, which is all
`sort.Sort` guarantees for a non-stable sort). -/
def sortByLength (l : List DiffNodeM) : List DiffNodeM := List.insertionSort byLengthRel l

/-- The first loop of `FS.compareIndex`, ranging over the remote index:
a path found in the local index with a different hash is appended to
`Conflicted` (carrying the remote hash), a path absent locally is
appended to `Added`. -/
def diffRemoteLoop (localIdx : List (String × String)) :
    List (String × String) → List DiffNodeM × List DiffNodeM
  | [] => ([], [])
  | (p, ref) :: rest =>
    let prev := diffRemoteLoop localIdx rest
    match lookupAssoc localIdx p with
    | some lref => if ref ≠ lref then (prev.1, ⟨p, ref⟩ :: prev.2) else prev
    | none => (⟨p, ref⟩ :: prev.1, prev.2)

/-- The second loop of `FS.compareIndex`, ranging over the local index:
a path absent from the remote index becomes a `DeletedCandidates`
entry. -/
def diffLocalLoop (remoteIdx : List (String × String)) :
    List (String × String) → List DiffNodeM
  | [] => []
  | (p, ref) :: rest =>
    match lookupAssoc remoteIdx p with
    | some _ => diffLocalLoop remoteIdx rest
    | none => ⟨p, ref⟩ :: diffLocalLoop remoteIdx rest

/-- `FS.compareIndex`: drop the root entry `"/"` from both indices, then
classify the remote entries into Added/Conflicted and the local entries
into DeletedCandidates, and sort the latter deepest-path-first. -/
def compareIndex (localIdx remoteIdx : List (String × String)) : DiffM :=
  let r := remoteIdx.filter (fun kv => kv.1 != "/")
  let l := localIdx.filter (fun kv => kv.1 != "/")
  let rc := diffRemoteLoop l r
  ⟨rc.1, rc.2, sortByLength (diffLocalLoop r l)⟩

/-- Failures of `FS.createNode` during a merge: the runtime panic of the
`child.(*Dir)` type assertion when the walk meets a file, and a failed
`metaFromHash` blob fetch. -/
inductive CreateErr where
  | typeAssertPanic
  | fetchFailed
  deriving DecidableEq, Repr

/-- The fresh intermediate-directory meta `&meta.Meta{Type: "dir",
Name: p}` created by `FS.createNode`. -/
def newDirMeta (p : String) : Meta := ⟨p, "dir", 0, "", 0, [], []⟩

/-- The walk of `FS.createNode` over the split path segments, acting on a
directory's child map: an existing child is entered (`child.(*Dir)`
panics on a file, even at the final segment, where an existing directory
ends the walk with no change); a missing final segment becomes a new
`File` built from the fetched meta; a missing intermediate segment
becomes a fresh empty directory that the rest of the walk continues
into.  The `node.Save()` calls along the walk recompute hashes but do
not change the tree shape, which is what this model tracks. -/
def createNodeSegs (cmeta : Meta) : Children → List String → Except CreateErr Children
  | cs, [] => .ok cs
  | cs, p :: rest =>
    match lookupChild cs p, rest with
    | some (.dir _ _), [] => .ok cs
    | some (.dir dm dcs), _ =>
      (createNodeSegs cmeta dcs rest).map (fun sub => setChild cs p (.dir dm sub))
    | some (.file _), _ => .error .typeAssertPanic
    | none, [] => .ok (setChild cs p (.file cmeta))
    | none, _ =>
      (createNodeSegs cmeta [] rest).map (fun sub => setChild cs p (.dir (newDirMeta p) sub))

/-- `FS.createNode(path, cmeta)`: split `path[1:]` on `"/"` and walk from
the root's child map. -/
def createNode (cmeta : Meta) (cs : Children) (path : String) : Except CreateErr Children :=
  createNodeSegs cmeta cs (goSplit '/' (path.drop 1))

/-- The `diff.Added` loop of the divergent-`Pull` merge: fetch each added
node's meta by hash (`metaFromHash`) and materialize it at its path. -/
def applyAdded (fetch : String → Except CreateErr Meta) :
    Children → List DiffNodeM → Except CreateErr Children
  | cs, [] => .ok cs
  | cs, dn :: rest =>
    match fetch dn.hash with
    | .error e => .error e
    | .ok m =>
      match createNode m cs dn.path with
      | .error e => .error e
      | .ok cs1 => applyAdded fetch cs1 rest

/-- The `diff.Conflicted` loop of the divergent-`Pull` merge: fetch the
remote meta, rename it with the `".conflicted"` suffix and materialize it
at `path + ".conflicted"`. -/
def applyConflicted (fetch : String → Except CreateErr Meta) :
    Children → List DiffNodeM → Except CreateErr Children
  | cs, [] => .ok cs
  | cs, dn :: rest =>
    match fetch dn.hash with
    | .error e => .error e
    | .ok m =>
      match createNode { m with name := m.name ++ ".conflicted" } cs
          (dn.path ++ ".conflicted") with
      | .error e => .error e
      | .ok cs1 => applyConflicted fetch cs1 rest

/-- The merge phase of a divergent `FS.Pull` (the conflict-handling block):
apply the Added loop, then the Conflicted loop; the `DeletedCandidates`
loop only logs each entry and applies no deletion. -/
def pullMergeDiff (fetch : String → Except CreateErr Meta) (cs : Children)
    (diff : DiffM) : Except CreateErr Children :=
  match applyAdded fetch cs diff.added with
  | .error e => .error e
  | .ok cs1 =>
    match applyConflicted fetch cs1 diff.conflicted with
    | .error e => .error e
    | .ok cs2 => .ok cs2

/-- Presence of a segment path inside a child map: the empty path is the
root (always present), a directory child is entered, a file child is
present exactly when it is the final segment. -/
def presentIn : Children → List String → Bool
  | _, [] => true
  | cs, p :: rest =>
    match lookupChild cs p with
    | some (.dir _ dcs) => presentIn dcs rest
    | some (.file _) => rest.isEmpty
    | none => false

/-- Presence of a full path (split exactly as `FS.createNode` splits it). -/
def presentPath (cs : Children) (path : String) : Bool :=
  presentIn cs (goSplit '/' (path.drop 1))

/-- Errors of `FS.loadRoot`: the fatal out-of-sync report when the local
remote-mirror is ahead of the live remote, and the final
`fmt.Errorf("shouldn't happen")` fallthrough. -/
inductive LoadErr where
  | outOfSync
  | shouldNotHappen
  deriving DecidableEq, Repr

/-- The FS state assembled by `loadRoot`: the two candidate mounts, the
working root `f.root` (a node id, `none` when `loadRoot` never assigns
it), and the WIP and remote-mirror version tracks of the local vkv store
(newest first). -/
structure LoadState where
  localMount : Option MountM
  remoteMount : Option MountM
  rootDir : Option Nat
  wipTrack : List (String × Nat)
  mirrorTrack : List (String × Nat)
  deriving DecidableEq, Repr

/-- The guard of the WIP branch of `loadRoot`: the WIP record exists and
its version exceeds whichever of the local remote-mirror and live remote
records exist (with the local-mirror-only combination falling through to
the error case below). -/
def wipWins : Option RootRec → Option RootRec → Option RootRec → Bool
  | none, _, _ => false
  | some _, none, none => true
  | some w, none, some r => decide (w.version > r.version)
  | some _, some _, none => false
  | some w, some l, some r => decide (w.version > l.version) && decide (w.version > r.version)

/-- `FS.loadRoot`, as a function of the three fetched version records
(WIP track, local remote-mirror track, live remote track), the decoded
node of each ref (`kvDataToDir`, modelled by `nodeOf`), the hash of the
freshly initialised empty root (`initRoot`), and the remote version list
used by the copy-all branch.  Mirrors the source's branch structure:
1. WIP wins → local Mount from the WIP record, `f.root` set.
2. Neither mirror nor remote exists → `initRoot` (whose `Save` commits a
   first WIP entry), a second WIP commit, local Mount, `f.root` set.
3. Both exist, versions equal → remote Mount built from the LOCAL mirror
   record; `f.root` is NOT assigned in this branch.
4. Mirror ahead of live remote → fatal `OutOfSync`.
5. Live remote ahead → copy the latest remote record into the mirror
   track, remote Mount, `f.root` set.
6. Only the live remote exists → copy all remote versions into the
   mirror track, remote Mount, `f.root` set.
Any other combination returns the `shouldn't happen` error. -/
def loadRoot (imm : Bool) (nodeOf : String → Nat) (newRootRef : String)
    (remoteVersions : List RootRec) (wipKv localKv remoteKv : Option RootRec)
    (wip0 mir0 : List (String × Nat)) : Except LoadErr LoadState :=
  if wipWins wipKv localKv remoteKv then
    match wipKv with
    | some w => .ok ⟨some ⟨imm, w, nodeOf w.ref⟩, none, some (nodeOf w.ref), wip0, mir0⟩
    | none => .error .shouldNotHappen
  else
    match localKv, remoteKv with
    | none, none =>
      let wip1 := (newRootRef, wip0.length + 1) :: wip0
      let v2 := wip1.length + 1
      .ok ⟨some ⟨false, ⟨newRootRef, v2, ""⟩, nodeOf newRootRef⟩, none,
        some (nodeOf newRootRef), (newRootRef, v2) :: wip1, mir0⟩
    | some l, some r =>
      if l.version = r.version then
        .ok ⟨none, some ⟨imm, l, nodeOf l.ref⟩, none, wip0, mir0⟩
      else if l.version > r.version then .error .outOfSync
      else
        .ok ⟨none, some ⟨imm, r, nodeOf r.ref⟩, some (nodeOf r.ref), wip0,
          (r.ref, r.version) :: mir0⟩
    | none, some r =>
      .ok ⟨none, some ⟨imm, r, nodeOf r.ref⟩, some (nodeOf r.ref), wip0,
        remoteVersions.foldl (fun acc v => (v.ref, v.version) :: acc) mir0⟩
    | some _, none => .error .shouldNotHappen

/-- A constant node-decoder used by concrete instances. -/
def constNode7 : String → Nat := fun _ => 7

/-- Concrete fetcher for the C7 witness. -/
def c7Fetch : String → Except CreateErr Meta := fun _ => .ok ⟨"a", "file", 0, "", 0, [], []⟩

/-- Concrete local tree for the C7 witness: one file `a` at the root. -/
def c7Tree : Children := [("a", .file ⟨"a", "file", 0, "", 0, [], []⟩)]

/-- Concrete diff for the C7 witness: `/a` is conflicted. -/
def c7Diff : DiffM := ⟨[], [⟨"/a", "h2"⟩], []⟩

/-- The merged tree of the C7 witness: the local file survives and the
remote copy appears at `a.conflicted`. -/
def c7Merged : Children :=
  [("a", .file ⟨"a", "file", 0, "", 0, [], []⟩),
   ("a.conflicted", .file ⟨"a.conflicted", "file", 0, "", 0, [], []⟩)]

/-- The state produced by `loadRoot` in the equal-versions case of the C8
counterexample: the remote Mount is active but `f.root` is never
assigned. -/
def c8EqState : LoadState := ⟨none, some ⟨false, ⟨"r", 3, ""⟩, 7⟩, none, [], []⟩

/-- The state produced by `loadRoot` in the WIP-wins case, used by the C8
witness. -/
def c8WipState : LoadState := ⟨some ⟨false, ⟨"w", 9, ""⟩, 7⟩, none, some 7, [], []⟩

/-- The initial state of the C2 witness. -/
def c2St0 : SaveState := ⟨⟨"", "dir", dirModeBits, "t0", 0, [], []⟩, [], [], [], none⟩

end Blobfs

namespace Blobfs

/-! ## Theorems -/

/-! ### C1: order dependence of the directory hash -/

/-- C1: directory hashing is claimed to be deterministic for identical
(name, attributes, child-hash-set) content regardless of child iteration
order.  The code violates this: `Dir.Save` appends one `AddRef` per entry
of the unordered child map in iteration order, without sorting, and the
canonical encoding keeps `refs` as an ordered array, so the two iteration
orders of the same two-child directory produce different hashes even
though the child-hash multisets are equal (a permutation of each other). -/
theorem c1_dir_hash_depends_on_iteration_order :
    c1MetaAB.refs.Perm c1MetaBA.refs ∧
    c1MetaAB.name = c1MetaBA.name ∧ c1MetaAB.modTime = c1MetaBA.modTime ∧
    metaHash c1MetaAB ≠ metaHash c1MetaBA := by
  refine ⟨?_, rfl, rfl, by decide⟩
  simpa [c1MetaAB, c1MetaBA, dirSaveRebuild] using List.Perm.swap "b" "a" []

/-! ### C2: Save is not idempotent on the WIP version track -/

lemma dirSaveRoot_dirMeta (now : String) (refs : List String) (st : SaveState) :
    (dirSaveRoot now refs st).dirMeta = dirSaveRebuild st.dirMeta now refs := rfl

lemma dirSaveRoot_localStore (now : String) (refs : List String) (st : SaveState) :
    (dirSaveRoot now refs st).localStore =
      if cacheStat st (metaHash (dirSaveRebuild st.dirMeta now refs)) then st.localStore
      else metaHash (dirSaveRebuild st.dirMeta now refs) :: st.localStore := rfl

lemma dirSaveRoot_remoteStore (now : String) (refs : List String) (st : SaveState) :
    (dirSaveRoot now refs st).remoteStore = st.remoteStore := rfl

lemma dirSaveRebuild_modTime_ne (dm : Meta) (now : String) (refs : List String)
    (hnow : now ≠ "") : (dirSaveRebuild dm now refs).modTime ≠ "" := by
  simp only [dirSaveRebuild]
  by_cases h : dm.modTime = "" <;> simp [h, hnow]

lemma dirSaveRebuild_idem (dm : Meta) (now1 now2 : String) (refs : List String)
    (h : (dirSaveRebuild dm now1 refs).modTime ≠ "") :
    dirSaveRebuild (dirSaveRebuild dm now1 refs) now2 refs = dirSaveRebuild dm now1 refs := by
  simp only [dirSaveRebuild] at h ⊢
  by_cases hdm : dm.modTime = ""
  · simp only [hdm, ne_eq, not_true_eq_false, if_false, ite_false] at h ⊢
    simp [h]
  · simp [hdm]

/-- Second `Save` of an unmutated root: with a nonempty wall-clock stamp
the rebuilt meta and hence the hash are unchanged, the existence check
finds the blob already stored and skips the `Put`, but `Dir.Save`
unconditionally commits a fresh auto-incremented version entry to the
local WIP track on every call, so a second version entry is appended. -/
theorem c2_save_again_same_hash_no_blob_but_new_version
    (st : SaveState) (now1 now2 : String) (childRefs : List String)
    (hnow : now1 ≠ "") :
    let st1 := dirSaveRoot now1 childRefs st
    let st2 := dirSaveRoot now2 childRefs st1
    st2.dirMeta = st1.dirMeta ∧
    metaHash st2.dirMeta = metaHash st1.dirMeta ∧
    st2.localStore = st1.localStore ∧
    st2.remoteStore = st1.remoteStore ∧
    st2.wipTrack.length = st1.wipTrack.length + 1 := by
  intro st1 st2
  have hmt : (dirSaveRebuild st.dirMeta now1 childRefs).modTime ≠ "" :=
    dirSaveRebuild_modTime_ne st.dirMeta now1 childRefs hnow
  have hst1meta : st1.dirMeta = dirSaveRebuild st.dirMeta now1 childRefs := rfl
  have hmeta : st2.dirMeta = st1.dirMeta := by
    rw [show st2.dirMeta = dirSaveRebuild st1.dirMeta now2 childRefs from rfl, hst1meta]
    exact dirSaveRebuild_idem st.dirMeta now1 now2 childRefs hmt
  have hstat : cacheStat st1 (metaHash st1.dirMeta) = true := by
    have hl : metaHash st1.dirMeta ∈ st1.localStore ∨ metaHash st1.dirMeta ∈ st1.remoteStore := by
      by_cases hc : cacheStat st (metaHash (dirSaveRebuild st.dirMeta now1 childRefs)) = true
      · have e : st1.localStore = st.localStore := by
          rw [dirSaveRoot_localStore, if_pos hc]
        rw [e, dirSaveRoot_remoteStore, hst1meta]
        simpa [cacheStat, Bool.or_eq_true] using hc
      · have e : st1.localStore
            = metaHash (dirSaveRebuild st.dirMeta now1 childRefs) :: st.localStore := by
          rw [dirSaveRoot_localStore, if_neg hc]
        left
        rw [e, hst1meta]
        exact List.mem_cons_self _ _
    simpa [cacheStat, Bool.or_eq_true] using hl
  have hreb2 : dirSaveRebuild st1.dirMeta now2 childRefs = st1.dirMeta := by
    rw [hst1meta]
    exact dirSaveRebuild_idem st.dirMeta now1 now2 childRefs hmt
  have hstore : st2.localStore = st1.localStore := by
    rw [dirSaveRoot_localStore, hreb2, if_pos hstat]
  exact ⟨hmeta, by rw [hmeta], hstore, rfl, rfl⟩

/-- Witness for C2's amended statement at a concrete state. -/
theorem c2_save_again_witness :
    (dirSaveRoot "t2" ["a"] (dirSaveRoot "t1" ["a"] c2St0)).dirMeta
        = (dirSaveRoot "t1" ["a"] c2St0).dirMeta ∧
    metaHash (dirSaveRoot "t2" ["a"] (dirSaveRoot "t1" ["a"] c2St0)).dirMeta
        = metaHash (dirSaveRoot "t1" ["a"] c2St0).dirMeta ∧
    (dirSaveRoot "t2" ["a"] (dirSaveRoot "t1" ["a"] c2St0)).localStore
        = (dirSaveRoot "t1" ["a"] c2St0).localStore ∧
    (dirSaveRoot "t2" ["a"] (dirSaveRoot "t1" ["a"] c2St0)).remoteStore
        = (dirSaveRoot "t1" ["a"] c2St0).remoteStore ∧
    (dirSaveRoot "t2" ["a"] (dirSaveRoot "t1" ["a"] c2St0)).wipTrack.length
        = (dirSaveRoot "t1" ["a"] c2St0).wipTrack.length + 1 :=
  c2_save_again_same_hash_no_blob_but_new_version c2St0 "t1" "t2" ["a"] (by decide)

/-- C2 counterexample: the claim as stated demands that a second `Save`
appends no second version entry to the local WIP track; starting from an
empty track, two successive `Save` calls on the unmutated root leave two
entries in the track. -/
theorem c2_second_save_appends_second_version :
    (dirSaveRoot "t2" ["a"]
      (dirSaveRoot "t1" ["a"]
        ⟨⟨"", "dir", dirModeBits, "t0", 0, [], []⟩, [], [], [], none⟩)).wipTrack.length = 2 := by
  decide

/-! ### C3: mount selection -/

/-- C3 counterexample: with equal root versions the claim says the local
Mount wins the tie, but `FS.Mount` returns the remote Mount (`local.Version
> remote.Version` is strict, so the tie falls through to `return f.remote`). -/
theorem c3_tie_returns_remote :
    fsMount (some ⟨false, ⟨"lref", 5, ""⟩, 1⟩) (some ⟨true, ⟨"rref", 5, ""⟩, 2⟩)
      = some ⟨true, ⟨"rref", 5, ""⟩, 2⟩ ∧
    (⟨true, ⟨"rref", 5, ""⟩, 2⟩ : MountM) ≠ ⟨false, ⟨"lref", 5, ""⟩, 1⟩ := by
  exact ⟨rfl, by decide⟩

/-- C3 amended: whenever at least one of the two mounts exists `FS.Mount`
returns exactly one of them, namely the one with the strictly higher root
version, and the REMOTE mount when the versions are equal (remote wins
ties, not local). -/
theorem c3_mount_selection (localM remoteM : Option MountM)
    (h : localM.isSome ∨ remoteM.isSome) :
    (∀ l, localM = some l → remoteM = none → fsMount localM remoteM = some l) ∧
    (∀ r, localM = none → remoteM = some r → fsMount localM remoteM = some r) ∧
    (∀ l r, localM = some l → remoteM = some r →
      fsMount localM remoteM = some (if r.root.version ≤ l.root.version ∧
        r.root.version ≠ l.root.version then l else r)) ∧
    (fsMount localM remoteM).isSome := by
  refine ⟨?_, ?_, ?_, ?_⟩
  · rintro l rfl rfl; rfl
  · rintro r rfl rfl; rfl
  · rintro l r rfl rfl
    simp only [fsMount]
    by_cases hlt : l.root.version > r.root.version
    · rw [if_pos hlt, if_pos ⟨Nat.le_of_lt hlt, fun e => by omega⟩]
    · rw [if_neg hlt, if_neg (fun ⟨hle, hne⟩ => by omega)]
  · rcases h with h | h
    · rcases Option.isSome_iff_exists.mp h with ⟨l, rfl⟩
      cases remoteM with
      | none => rfl
      | some r =>
        simp only [fsMount]
        by_cases hlt : l.root.version > r.root.version <;> simp [hlt]
    · rcases Option.isSome_iff_exists.mp h with ⟨r, rfl⟩
      cases localM with
      | none => rfl
      | some l =>
        simp only [fsMount]
        by_cases hlt : l.root.version > r.root.version <;> simp [hlt]

/-- Witness for C3's amended statement: local at version 7 beats remote at
version 3. -/
theorem c3_mount_selection_witness :
    fsMount (some ⟨false, ⟨"l", 7, ""⟩, 1⟩) (some ⟨true, ⟨"r", 3, ""⟩, 2⟩)
      = some ⟨false, ⟨"l", 7, ""⟩, 1⟩ := by
  have h := (c3_mount_selection (some ⟨false, ⟨"l", 7, ""⟩, 1⟩)
    (some ⟨true, ⟨"r", 3, ""⟩, 2⟩) (Or.inl rfl)).2.2.1
  simpa using h ⟨false, ⟨"l", 7, ""⟩, 1⟩ ⟨true, ⟨"r", 3, ""⟩, 2⟩ rfl rfl

/-! ### C5: the Push no-op guard -/

/-- C5 counterexample: with no local Mount and an active remote Mount the
claim says Push returns success as a no-op, but `f.local.root` is a nil
dereference, so the call panics instead of returning success. -/
theorem c5_push_no_local_mount_panics :
    pushGate none (some ⟨true, ⟨"r", 3, ""⟩, 2⟩) = .panicked := rfl

/-- C5 amended: `FS.Push` returns success as an immediate no-op exactly
when a local Mount exists and the active Mount's root ref differs from the
local Mount's root ref; when no mount or no local Mount exists the guard
panics on a nil dereference, and when the active Mount carries the same
root ref as the local Mount (including the in-sync state where the active
mount is the remote one) Push proceeds to the upload-and-commit body. -/
theorem c5_push_gate (localM remoteM : Option MountM) :
    (pushGate localM remoteM = .noop ↔
      ∃ l m, localM = some l ∧ fsMount localM remoteM = some m ∧ m.root.ref ≠ l.root.ref) ∧
    (localM = none → pushGate localM remoteM = .panicked) ∧
    (∀ l m, localM = some l → fsMount localM remoteM = some m → m.root.ref = l.root.ref →
      pushGate localM remoteM = .proceeded) := by
  refine ⟨⟨?_, ?_⟩, ?_, ?_⟩
  · intro h
    unfold pushGate at h
    split at h
    · simp at h
    next m hm =>
      split at h
      · simp at h
      next _ l =>
        split at h
        next hne => exact ⟨l, m, rfl, hm, hne⟩
        next hne => simp at h
  · rintro ⟨l, m, hl, hm, hne⟩
    unfold pushGate
    rw [hm, hl]
    simp [hne]
  · rintro rfl
    cases remoteM <;> rfl
  · rintro l m hl hm hr
    unfold pushGate
    rw [hm, hl]
    simp [hr]

/-- Witness for C5's amended statement: a local mount at `"l"` with the
remote mount active at a different ref `"r"` makes Push an early no-op. -/
theorem c5_push_gate_witness :
    pushGate (some ⟨false, ⟨"l", 2, ""⟩, 1⟩) (some ⟨true, ⟨"r", 5, ""⟩, 2⟩) = .noop := by
  have h := (c5_push_gate (some ⟨false, ⟨"l", 2, ""⟩, 1⟩) (some ⟨true, ⟨"r", 5, ""⟩, 2⟩)).1.2
  exact h ⟨⟨false, ⟨"l", 2, ""⟩, 1⟩, ⟨true, ⟨"r", 5, ""⟩, 2⟩, rfl, rfl, by decide⟩

/-! ### C9: the two-tier Content Store `Cache.Get` -/

/-- C9: `Cache.Get` returns the locally stored bytes on a local hit
without touching the state; on a local miss it returns the remote bytes
and writes them through to the local tier (so every remote-served Get
populates the local tier); and it fails exactly when the blob is absent
from both tiers. -/
theorem c9_cache_get (remote : String → Option (List Nat))
    (localTier : List (String × List Nat)) (h : String) :
    (∀ blob, lookupAssoc localTier h = some blob →
      cacheGet remote localTier h = .ok (blob, localTier)) ∧
    (∀ blob, lookupAssoc localTier h = none → remote h = some blob →
      cacheGet remote localTier h = .ok (blob, (h, blob) :: localTier) ∧
        lookupAssoc ((h, blob) :: localTier) h = some blob) ∧
    (cacheGet remote localTier h = .error .blobNotFound ↔
      lookupAssoc localTier h = none ∧ remote h = none) := by
  refine ⟨?_, ?_, ?_, ?_⟩
  · intro blob hb
    simp [cacheGet, hb]
  · intro blob hmiss hr
    refine ⟨by simp [cacheGet, hmiss, hr], by simp [lookupAssoc]⟩
  · intro herr
    cases hl : lookupAssoc localTier h with
    | some blob => simp [cacheGet, hl] at herr
    | none =>
      cases hr : remote h with
      | some blob => simp [cacheGet, hl, hr] at herr
      | none => exact ⟨rfl, rfl⟩
  · rintro ⟨hl, hr⟩
    simp [cacheGet, hl, hr]

/-- Witness for C9 at a concrete store: hash `"h2"` is locally absent but
remotely present, so Get serves it and fills the local tier. -/
theorem c9_cache_get_witness :
    cacheGet (fun q => if q = "h2" then some [7, 8] else none) [("h1", [1])] "h2"
      = .ok ([7, 8], [("h2", [7, 8]), ("h1", [1])]) :=
  ((c9_cache_get (fun q => if q = "h2" then some [7, 8] else none) [("h1", [1])] "h2").2.1
    [7, 8] (by decide) (by decide)).1

/-! ### C10: the File.Write buffer overlay -/

/-- C10: on a mutable mount, whenever the offset is at most the buffer
length and the end of the write does not exceed `maxInt`, `File.Write`
succeeds, reports `resp.Size = len(req.Data)`, and the buffer becomes the
old contents with the request data overlaid at the offset (extended past
the old end as needed); when the offset lies strictly beyond the buffer
end the slice expression `f.data[req.Offset:]` is out of range, so the
write is not handled (no gap is zero-filled) — it panics. -/
theorem c10_file_write (data req : List Nat) (off : Nat) :
    (off ≤ data.length → off + req.length ≤ maxInt →
      fileWrite false data off req
        = .ok req.length (data.take off ++ req ++ data.drop (off + req.length))) ∧
    (data.length < off → off + req.length ≤ maxInt →
      fileWrite false data off req = .panicked) := by
  constructor
  · intro h1 h2
    unfold fileWrite
    rw [if_neg (by simp), if_neg (by omega), if_neg (by omega)]
    by_cases hc : req.length ≤ data.length - off
    · have hmin : min req.length (data.length - off) = req.length := by omega
      rw [if_neg (by simp [goCopyInto, hmin])]
      simp [goCopyInto, hmin, List.take_length]
    · have hmin : min req.length (data.length - off) = data.length - off := by omega
      rw [if_pos (by simp [goCopyInto, hmin]; omega)]
      simp only [goCopyInto, hmin]
      have hdrop1 : data.drop (off + (data.length - off)) = [] :=
        List.drop_eq_nil_of_le (by omega)
      have hdrop2 : data.drop (off + req.length) = [] :=
        List.drop_eq_nil_of_le (by omega)
      rw [hdrop1, hdrop2]
      simp [List.append_assoc, List.take_append_drop]
  · intro h1 h2
    unfold fileWrite
    rw [if_neg (by simp), if_neg (by omega), if_pos (by omega)]

/-- Witness for C10: overwriting byte 1 of `[1, 2, 3]` with three bytes
extends the buffer to `[1, 9, 9, 9]` and reports size 3. -/
theorem c10_file_write_witness :
    fileWrite false [1, 2, 3] 1 [9, 9, 9] = .ok 3 [1, 9, 9, 9] := by
  have h := (c10_file_write [1, 2, 3] [9, 9, 9] 1).1 (by decide) (by decide)
  simpa using h

/-! ### C4: behaviour of the mutating operations under an immutable mount -/

/-- C4 counterexample: the claim says every mutating operation, including
`setxattr` on non-virtual names, fails with `PermissionDenied` under an
immutable mount; but `File.Setxattr` returns `nil` (success) without
touching the meta. -/
theorem c4_file_setxattr_immutable_returns_ok :
    fileSetxattr true c4FileMeta "user.test" "v" = .ok c4FileMeta ∧
    (Except.ok c4FileMeta : Except FuseErr Meta) ≠ .error .eperm :=
  ⟨rfl, fun h => Except.noConfusion h⟩

/-! ### C6: the three-way diff of `FS.compareIndex` -/

lemma lookupAssoc_eq_some_iff {α : Type} (l : List (String × α))
    (hnd : (l.map Prod.fst).Nodup) (p : String) (v : α) :
    lookupAssoc l p = some v ↔ (p, v) ∈ l := by
  induction l with
  | nil => simp [lookupAssoc]
  | cons kv rest ih =>
    obtain ⟨k, w⟩ := kv
    simp only [List.map_cons, List.nodup_cons] at hnd
    obtain ⟨hk, hrest⟩ := hnd
    by_cases hkp : k = p
    · subst hkp
      have e : lookupAssoc ((k, w) :: rest) k = some w := by simp [lookupAssoc]
      rw [e]
      simp only [List.mem_cons, Option.some.injEq, Prod.mk.injEq]
      constructor
      · rintro rfl
        simp
      · rintro (⟨-, rfl⟩ | h)
        · rfl
        · exact absurd (List.mem_map_of_mem Prod.fst h) hk
    · simp only [lookupAssoc, if_neg hkp, List.mem_cons, Prod.mk.injEq]
      rw [ih hrest]
      constructor
      · exact Or.inr
      · rintro (⟨rfl, -⟩ | h)
        · exact absurd rfl hkp
        · exact h

lemma lookupAssoc_filter_root {α : Type} (l : List (String × α)) (p : String) (hp : p ≠ "/") :
    lookupAssoc (l.filter fun kv => kv.1 != "/") p = lookupAssoc l p := by
  induction l with
  | nil => rfl
  | cons kv rest ih =>
    obtain ⟨k, v⟩ := kv
    by_cases hk : k = "/"
    · subst hk
      have hkp : ("/" : String) ≠ p := fun h => hp h.symm
      simp only [List.filter_cons, bne_self_eq_false, Bool.false_eq_true, if_false,
        lookupAssoc, if_neg hkp]
      exact ih
    · simp only [List.filter_cons, bne_iff_ne, ne_eq, hk, not_false_eq_true, if_true,
        lookupAssoc]
      by_cases hkp : k = p
      · simp [hkp]
      · simp only [if_neg hkp]
        exact ih

lemma nodup_keys_filter {α : Type} (l : List (String × α)) (h : (l.map Prod.fst).Nodup)
    (pred : String × α → Bool) : ((l.filter pred).map Prod.fst).Nodup :=
  List.Nodup.sublist ((List.filter_sublist l).map Prod.fst) h

lemma mem_diffRemoteLoop_added (l : List (String × String)) (r : List (String × String))
    (p h : String) :
    (⟨p, h⟩ : DiffNodeM) ∈ (diffRemoteLoop l r).1 ↔ (p, h) ∈ r ∧ lookupAssoc l p = none := by
  induction r with
  | nil => simp [diffRemoteLoop]
  | cons kv rest ih =>
    obtain ⟨q, ref⟩ := kv
    simp only [diffRemoteLoop]
    cases hq : lookupAssoc l q with
    | some lref =>
      have hcommon : (⟨p, h⟩ : DiffNodeM) ∈ (diffRemoteLoop l rest).1 ↔
          (p, h) ∈ (q, ref) :: rest ∧ lookupAssoc l p = none := by
        rw [ih]
        simp only [List.mem_cons, Prod.mk.injEq]
        constructor
        · rintro ⟨hm, hl⟩
          exact ⟨Or.inr hm, hl⟩
        · rintro ⟨⟨rfl, rfl⟩ | hm, hl⟩
          · rw [hq] at hl
            cases hl
          · exact ⟨hm, hl⟩
      by_cases hne : ref ≠ lref
      · simpa only [if_pos hne] using hcommon
      · simpa only [if_neg hne] using hcommon
    | none =>
      simp only [List.mem_cons, DiffNodeM.mk.injEq, Prod.mk.injEq]
      rw [ih]
      constructor
      · rintro (⟨rfl, rfl⟩ | ⟨hm, hl⟩)
        · exact ⟨Or.inl ⟨rfl, rfl⟩, hq⟩
        · exact ⟨Or.inr hm, hl⟩
      · rintro ⟨⟨rfl, rfl⟩ | hm, hl⟩
        · exact Or.inl ⟨rfl, rfl⟩
        · exact Or.inr ⟨hm, hl⟩

lemma mem_diffRemoteLoop_conflicted (l : List (String × String)) (r : List (String × String))
    (p h : String) :
    (⟨p, h⟩ : DiffNodeM) ∈ (diffRemoteLoop l r).2 ↔
      (p, h) ∈ r ∧ ∃ lh, lookupAssoc l p = some lh ∧ h ≠ lh := by
  induction r with
  | nil => simp [diffRemoteLoop]
  | cons kv rest ih =>
    obtain ⟨q, ref⟩ := kv
    simp only [diffRemoteLoop]
    cases hq : lookupAssoc l q with
    | some lref =>
      by_cases hne : ref ≠ lref
      · simp only [if_pos hne, List.mem_cons, DiffNodeM.mk.injEq, Prod.mk.injEq]
        rw [ih]
        constructor
        · rintro (⟨rfl, rfl⟩ | ⟨hm, hl⟩)
          · exact ⟨Or.inl ⟨rfl, rfl⟩, lref, hq, hne⟩
          · exact ⟨Or.inr hm, hl⟩
        · rintro ⟨⟨rfl, rfl⟩ | hm, hl⟩
          · exact Or.inl ⟨rfl, rfl⟩
          · exact Or.inr ⟨hm, hl⟩
      · simp only [if_neg hne, List.mem_cons, Prod.mk.injEq]
        rw [ih]
        constructor
        · rintro ⟨hm, hl⟩
          exact ⟨Or.inr hm, hl⟩
        · rintro ⟨⟨rfl, rfl⟩ | hm, ⟨lh, hl, hhl⟩⟩
          · rw [hq] at hl
            injection hl with hl
            subst hl
            exact absurd hhl hne
          · exact ⟨hm, lh, hl, hhl⟩
    | none =>
      simp only [List.mem_cons, Prod.mk.injEq]
      rw [ih]
      constructor
      · rintro ⟨hm, hl⟩
        exact ⟨Or.inr hm, hl⟩
      · rintro ⟨⟨rfl, rfl⟩ | hm, ⟨lh, hl, hhl⟩⟩
        · rw [hq] at hl
          cases hl
        · exact ⟨hm, lh, hl, hhl⟩

lemma mem_diffLocalLoop (r : List (String × String)) (l : List (String × String))
    (p h : String) :
    (⟨p, h⟩ : DiffNodeM) ∈ diffLocalLoop r l ↔ (p, h) ∈ l ∧ lookupAssoc r p = none := by
  induction l with
  | nil => simp [diffLocalLoop]
  | cons kv rest ih =>
    obtain ⟨q, ref⟩ := kv
    simp only [diffLocalLoop]
    cases hq : lookupAssoc r q with
    | some lref =>
      rw [ih]
      simp only [List.mem_cons, Prod.mk.injEq]
      constructor
      · rintro ⟨hm, hl⟩
        exact ⟨Or.inr hm, hl⟩
      · rintro ⟨⟨rfl, rfl⟩ | hm, hl⟩
        · rw [hq] at hl
          cases hl
        · exact ⟨hm, hl⟩
    | none =>
      simp only [List.mem_cons, DiffNodeM.mk.injEq, Prod.mk.injEq]
      rw [ih]
      constructor
      · rintro (⟨rfl, rfl⟩ | ⟨hm, hl⟩)
        · exact ⟨Or.inl ⟨rfl, rfl⟩, hq⟩
        · exact ⟨Or.inr hm, hl⟩
      · rintro ⟨⟨rfl, rfl⟩ | hm, hl⟩
        · exact Or.inl ⟨rfl, rfl⟩
        · exact Or.inr ⟨hm, hl⟩

lemma mem_pair_filter_root {α : Type} (l : List (String × α)) (p : String) (v : α) :
    (p, v) ∈ (l.filter fun kv => kv.1 != "/") ↔ (p, v) ∈ l ∧ p ≠ "/" := by
  rw [List.mem_filter]
  simp [bne_iff_ne]

/-- C6: `compareIndex` classifies exactly as claimed — `Added` is the
paths present remotely and absent locally, `Conflicted` the paths present
in both with differing hashes (carrying the remote hash), and
`DeletedCandidates` the paths present locally and absent remotely; the
root entry `"/"` is excluded from all three; and `DeletedCandidates` is
sorted by descending path-segment count (deepest first). -/
theorem c6_compare_index (localIdx remoteIdx : List (String × String))
    (hl : (localIdx.map Prod.fst).Nodup) (hr : (remoteIdx.map Prod.fst).Nodup) :
    (∀ p h, (⟨p, h⟩ : DiffNodeM) ∈ (compareIndex localIdx remoteIdx).added ↔
      p ≠ "/" ∧ lookupAssoc remoteIdx p = some h ∧ lookupAssoc localIdx p = none) ∧
    (∀ p h, (⟨p, h⟩ : DiffNodeM) ∈ (compareIndex localIdx remoteIdx).conflicted ↔
      p ≠ "/" ∧ lookupAssoc remoteIdx p = some h ∧
        ∃ lh, lookupAssoc localIdx p = some lh ∧ h ≠ lh) ∧
    (∀ p h, (⟨p, h⟩ : DiffNodeM) ∈ (compareIndex localIdx remoteIdx).deletedCandidates ↔
      p ≠ "/" ∧ lookupAssoc localIdx p = some h ∧ lookupAssoc remoteIdx p = none) ∧
    (compareIndex localIdx remoteIdx).deletedCandidates.Sorted byLengthRel := by
  have hlf := nodup_keys_filter localIdx hl (fun kv => kv.1 != "/")
  have hrf := nodup_keys_filter remoteIdx hr (fun kv => kv.1 != "/")
  refine ⟨?_, ?_, ?_, ?_⟩
  · intro p h
    show (⟨p, h⟩ : DiffNodeM) ∈ (diffRemoteLoop _ _).1 ↔ _
    rw [mem_diffRemoteLoop_added]
    constructor
    · rintro ⟨hm, hlk⟩
      obtain ⟨hmem, hp⟩ := (mem_pair_filter_root remoteIdx p h).mp hm
      refine ⟨hp, (lookupAssoc_eq_some_iff remoteIdx hr p h).mpr hmem, ?_⟩
      rw [← lookupAssoc_filter_root localIdx p hp]
      exact hlk
    · rintro ⟨hp, hrk, hlk⟩
      refine ⟨(mem_pair_filter_root remoteIdx p h).mpr
        ⟨(lookupAssoc_eq_some_iff remoteIdx hr p h).mp hrk, hp⟩, ?_⟩
      rw [lookupAssoc_filter_root localIdx p hp]
      exact hlk
  · intro p h
    show (⟨p, h⟩ : DiffNodeM) ∈ (diffRemoteLoop _ _).2 ↔ _
    rw [mem_diffRemoteLoop_conflicted]
    constructor
    · rintro ⟨hm, lh, hlk, hhl⟩
      obtain ⟨hmem, hp⟩ := (mem_pair_filter_root remoteIdx p h).mp hm
      refine ⟨hp, (lookupAssoc_eq_some_iff remoteIdx hr p h).mpr hmem, lh, ?_, hhl⟩
      rw [← lookupAssoc_filter_root localIdx p hp]
      exact hlk
    · rintro ⟨hp, hrk, lh, hlk, hhl⟩
      refine ⟨(mem_pair_filter_root remoteIdx p h).mpr
        ⟨(lookupAssoc_eq_some_iff remoteIdx hr p h).mp hrk, hp⟩, lh, ?_, hhl⟩
      rw [lookupAssoc_filter_root localIdx p hp]
      exact hlk
  · intro p h
    show (⟨p, h⟩ : DiffNodeM) ∈ sortByLength _ ↔ _
    unfold sortByLength
    rw [(List.perm_insertionSort byLengthRel _).mem_iff, mem_diffLocalLoop]
    constructor
    · rintro ⟨hm, hrk⟩
      obtain ⟨hmem, hp⟩ := (mem_pair_filter_root localIdx p h).mp hm
      refine ⟨hp, (lookupAssoc_eq_some_iff localIdx hl p h).mpr hmem, ?_⟩
      rw [← lookupAssoc_filter_root remoteIdx p hp]
      exact hrk
    · rintro ⟨hp, hlk, hrk⟩
      refine ⟨(mem_pair_filter_root localIdx p h).mpr
        ⟨(lookupAssoc_eq_some_iff localIdx hl p h).mp hlk, hp⟩, ?_⟩
      rw [lookupAssoc_filter_root remoteIdx p hp]
      exact hrk
  · show (sortByLength _).Sorted byLengthRel
    exact List.sorted_insertionSort byLengthRel _

/-- Witness for C6 at concrete indices: `/c` is added, `/a` conflicted,
`/a/b` a deletion candidate, and the candidate list is sorted deepest
first. -/
theorem c6_compare_index_witness :
    (⟨"/c", "h3"⟩ : DiffNodeM)
        ∈ (compareIndex [("/", "hq"), ("/a", "h1"), ("/a/b", "h2")]
            [("/", "hw"), ("/a", "h1x"), ("/c", "h3")]).added ∧
    (compareIndex [("/", "hq"), ("/a", "h1"), ("/a/b", "h2")]
        [("/", "hw"), ("/a", "h1x"), ("/c", "h3")]).deletedCandidates.Sorted byLengthRel := by
  have h := c6_compare_index [("/", "hq"), ("/a", "h1"), ("/a/b", "h2")]
    [("/", "hw"), ("/a", "h1x"), ("/c", "h3")] (by decide) (by decide)
  exact ⟨(h.1 "/c" "h3").mpr ⟨by decide, by decide, by decide⟩, h.2.2.2⟩

/-! ### C7: the divergent-Pull merge never removes a local path -/

lemma lookupChild_setChild_self (cs : Children) (q : String) (n : TNode) :
    lookupChild (setChild cs q n) q = some n := by
  induction cs with
  | nil => simp [setChild, lookupChild]
  | cons kv rest ih =>
    obtain ⟨k, c⟩ := kv
    by_cases hk : k = q
    · simp [setChild, hk, lookupChild]
    · simp [setChild, hk, lookupChild, ih]

lemma lookupChild_setChild_ne (cs : Children) (q p : String) (n : TNode) (h : p ≠ q) :
    lookupChild (setChild cs q n) p = lookupChild cs p := by
  have hqp : q ≠ p := fun e => h e.symm
  induction cs with
  | nil => simp [setChild, lookupChild, hqp]
  | cons kv rest ih =>
    obtain ⟨k, c⟩ := kv
    by_cases hk : k = q
    · subst hk
      simp [setChild, lookupChild, hqp]
    · simp only [setChild, if_neg hk, lookupChild]
      by_cases hkp : k = p
      · simp [hkp]
      · simp only [if_neg hkp]
        exact ih

lemma createNodeSegs_cons (cmeta : Meta) (cs : Children) (p : String) (rest : List String) :
    createNodeSegs cmeta cs (p :: rest) =
      match lookupChild cs p, rest with
      | some (.dir _ _), [] => .ok cs
      | some (.dir dm dcs), _ =>
        (createNodeSegs cmeta dcs rest).map (fun sub => setChild cs p (.dir dm sub))
      | some (.file _), _ => .error .typeAssertPanic
      | none, [] => .ok (setChild cs p (.file cmeta))
      | none, _ =>
        (createNodeSegs cmeta [] rest).map (fun sub => setChild cs p (.dir (newDirMeta p) sub)) :=
  rfl

lemma presentIn_cons (cs : Children) (q : String) (qs : List String) :
    presentIn cs (q :: qs) =
      match lookupChild cs q with
      | some (.dir _ dcs) => presentIn dcs qs
      | some (.file _) => qs.isEmpty
      | none => false := rfl

lemma createNodeSegs_preserves (cmeta : Meta) :
    ∀ (segs : List String) (cs cs2 : Children),
      createNodeSegs cmeta cs segs = .ok cs2 →
      ∀ path, presentIn cs path = true → presentIn cs2 path = true := by
  intro segs
  induction segs with
  | nil =>
    intro cs cs2 h path hp
    injection h with h
    subst h
    exact hp
  | cons p rest ih =>
    intro cs cs2 h path hp
    rw [createNodeSegs_cons] at h
    cases rest with
    | nil =>
      cases hlv : lookupChild cs p with
      | some child =>
        cases child with
        | dir dm dcs =>
          simp only [hlv, Except.ok.injEq] at h
          subst h
          exact hp
        | file fm =>
          simp only [hlv] at h
          exact Except.noConfusion h
      | none =>
        simp only [hlv, Except.ok.injEq] at h
        subst h
        cases path with
        | nil => rfl
        | cons q qs =>
          rw [presentIn_cons] at hp ⊢
          by_cases hq : q = p
          · subst hq
            simp only [hlv] at hp
            exact Bool.noConfusion hp
          · rw [lookupChild_setChild_ne cs p q (.file cmeta) hq]
            exact hp
    | cons r0 rs =>
      cases hlv : lookupChild cs p with
      | some child =>
        cases child with
        | dir dm dcs =>
          simp only [hlv] at h
          cases hsub : createNodeSegs cmeta dcs (r0 :: rs) with
          | error e =>
            rw [hsub] at h
            simp [Except.map] at h
          | ok sub =>
            rw [hsub] at h
            simp only [Except.map, Except.ok.injEq] at h
            subst h
            cases path with
            | nil => rfl
            | cons q qs =>
              rw [presentIn_cons] at hp ⊢
              by_cases hq : q = p
              · subst hq
                simp only [hlv] at hp
                simp only [lookupChild_setChild_self]
                exact ih dcs sub hsub qs hp
              · rw [lookupChild_setChild_ne cs p q (.dir dm sub) hq]
                exact hp
        | file fm =>
          simp only [hlv] at h
          exact Except.noConfusion h
      | none =>
        simp only [hlv] at h
        cases hsub : createNodeSegs cmeta [] (r0 :: rs) with
        | error e =>
          rw [hsub] at h
          simp [Except.map] at h
        | ok sub =>
          rw [hsub] at h
          simp only [Except.map, Except.ok.injEq] at h
          subst h
          cases path with
          | nil => rfl
          | cons q qs =>
            rw [presentIn_cons] at hp ⊢
            by_cases hq : q = p
            · subst hq
              simp only [hlv] at hp
              exact Bool.noConfusion hp
            · rw [lookupChild_setChild_ne cs p q (.dir (newDirMeta p) sub) hq]
              exact hp

lemma createNodeSegs_present (cmeta : Meta) :
    ∀ (segs : List String) (cs cs2 : Children),
      createNodeSegs cmeta cs segs = .ok cs2 → presentIn cs2 segs = true := by
  intro segs
  induction segs with
  | nil => intro cs cs2 _; rfl
  | cons p rest ih =>
    intro cs cs2 h
    rw [createNodeSegs_cons] at h
    cases rest with
    | nil =>
      cases hlv : lookupChild cs p with
      | some child =>
        cases child with
        | dir dm dcs =>
          simp only [hlv, Except.ok.injEq] at h
          subst h
          rw [presentIn_cons]
          simp [hlv, presentIn]
        | file fm =>
          simp only [hlv] at h
          exact Except.noConfusion h
      | none =>
        simp only [hlv, Except.ok.injEq] at h
        subst h
        rw [presentIn_cons]
        simp [lookupChild_setChild_self]
    | cons r0 rs =>
      cases hlv : lookupChild cs p with
      | some child =>
        cases child with
        | dir dm dcs =>
          simp only [hlv] at h
          cases hsub : createNodeSegs cmeta dcs (r0 :: rs) with
          | error e =>
            rw [hsub] at h
            simp [Except.map] at h
          | ok sub =>
            rw [hsub] at h
            simp only [Except.map, Except.ok.injEq] at h
            subst h
            rw [presentIn_cons]
            simp only [lookupChild_setChild_self]
            exact ih dcs sub hsub
        | file fm =>
          simp only [hlv] at h
          exact Except.noConfusion h
      | none =>
        simp only [hlv] at h
        cases hsub : createNodeSegs cmeta [] (r0 :: rs) with
        | error e =>
          rw [hsub] at h
          simp [Except.map] at h
        | ok sub =>
          rw [hsub] at h
          simp only [Except.map, Except.ok.injEq] at h
          subst h
          rw [presentIn_cons]
          simp only [lookupChild_setChild_self]
          exact ih [] sub hsub

lemma applyAdded_preserves (fetch : String → Except CreateErr Meta) :
    ∀ (l : List DiffNodeM) (cs cs2 : Children), applyAdded fetch cs l = .ok cs2 →
      ∀ path, presentIn cs path = true → presentIn cs2 path = true := by
  intro l
  induction l with
  | nil =>
    intro cs cs2 h path hp
    injection h with h
    subst h
    exact hp
  | cons dn rest ih =>
    intro cs cs2 h path hp
    simp only [applyAdded] at h
    cases hf : fetch dn.hash with
    | error e =>
      simp only [hf] at h
      exact Except.noConfusion h
    | ok m =>
      simp only [hf] at h
      cases hc : createNode m cs dn.path with
      | error e =>
        simp only [hc] at h
        exact Except.noConfusion h
      | ok cs1 =>
        simp only [hc] at h
        exact ih cs1 cs2 h path (createNodeSegs_preserves m _ cs cs1 hc path hp)

lemma applyConflicted_preserves (fetch : String → Except CreateErr Meta) :
    ∀ (l : List DiffNodeM) (cs cs2 : Children), applyConflicted fetch cs l = .ok cs2 →
      ∀ path, presentIn cs path = true → presentIn cs2 path = true := by
  intro l
  induction l with
  | nil =>
    intro cs cs2 h path hp
    injection h with h
    subst h
    exact hp
  | cons dn rest ih =>
    intro cs cs2 h path hp
    simp only [applyConflicted] at h
    cases hf : fetch dn.hash with
    | error e =>
      simp only [hf] at h
      exact Except.noConfusion h
    | ok m =>
      simp only [hf] at h
      cases hc : createNode { m with name := m.name ++ ".conflicted" } cs
          (dn.path ++ ".conflicted") with
      | error e =>
        simp only [hc] at h
        exact Except.noConfusion h
      | ok cs1 =>
        simp only [hc] at h
        exact ih cs1 cs2 h path
          (createNodeSegs_preserves { m with name := m.name ++ ".conflicted" } _ cs cs1 hc
            path hp)

lemma applyConflicted_present (fetch : String → Except CreateErr Meta) :
    ∀ (l : List DiffNodeM) (cs cs2 : Children), applyConflicted fetch cs l = .ok cs2 →
      ∀ dn ∈ l, presentPath cs2 (dn.path ++ ".conflicted") = true := by
  intro l
  induction l with
  | nil =>
    intro cs cs2 _ dn hdn
    cases hdn
  | cons dn0 rest ih =>
    intro cs cs2 h dn hdn
    simp only [applyConflicted] at h
    cases hf : fetch dn0.hash with
    | error e =>
      simp only [hf] at h
      exact Except.noConfusion h
    | ok m =>
      simp only [hf] at h
      cases hc : createNode { m with name := m.name ++ ".conflicted" } cs
          (dn0.path ++ ".conflicted") with
      | error e =>
        simp only [hc] at h
        exact Except.noConfusion h
      | ok cs1 =>
        simp only [hc] at h
        rcases List.mem_cons.mp hdn with rfl | hmem
        · have h1 : presentIn cs1 (goSplit '/' ((dn.path ++ ".conflicted").drop 1)) = true :=
            createNodeSegs_present { m with name := m.name ++ ".conflicted" } _ cs cs1 hc
          exact applyConflicted_preserves fetch rest cs1 cs2 h _ h1
        · exact ih cs1 cs2 h dn hmem

/-- C7: when the merge phase of a divergent Pull succeeds, no path that
was present in the local tree has been removed (in particular every
`DeletedCandidates` path is left untouched — the merge never reads the
candidate list), and for every `Conflicted` entry the remote node has
been materialized at `path + ".conflicted"`, so both copies are present
in the merged tree. -/
theorem c7_pull_merge_no_deletion (fetch : String → Except CreateErr Meta)
    (cs cs2 : Children) (diff : DiffM)
    (h : pullMergeDiff fetch cs diff = .ok cs2) :
    (∀ path, presentPath cs path = true → presentPath cs2 path = true) ∧
    (∀ dn ∈ diff.conflicted, presentPath cs2 (dn.path ++ ".conflicted") = true) := by
  unfold pullMergeDiff at h
  cases ha : applyAdded fetch cs diff.added with
  | error e =>
    simp only [ha] at h
    exact Except.noConfusion h
  | ok cs1 =>
    simp only [ha] at h
    cases hb : applyConflicted fetch cs1 diff.conflicted with
    | error e =>
      simp only [hb] at h
      exact Except.noConfusion h
    | ok csf =>
      simp only [hb, Except.ok.injEq] at h
      subst h
      constructor
      · intro path hp
        exact applyConflicted_preserves fetch diff.conflicted cs1 csf hb
          (goSplit '/' (path.drop 1))
          (applyAdded_preserves fetch diff.added cs cs1 ha (goSplit '/' (path.drop 1)) hp)
      · intro dn hdn
        exact applyConflicted_present fetch diff.conflicted cs1 csf hb dn hdn

/-- Witness for C7 at a concrete tree: local file `/a` conflicts; after
the merge both `/a` and `/a.conflicted` are present. -/
theorem c7_pull_merge_witness :
    presentPath c7Merged "/a" = true ∧ presentPath c7Merged "/a.conflicted" = true :=
  ⟨(c7_pull_merge_no_deletion c7Fetch c7Tree c7Merged c7Diff rfl).1 "/a" rfl,
   (c7_pull_merge_no_deletion c7Fetch c7Tree c7Merged c7Diff rfl).2 ⟨"/a", "h2"⟩
     (List.mem_cons_self _ _)⟩

/-- C4 amended: under an immutable mount, `write`, `create`, `mkdir` and
`remove` fail with `PermissionDenied` before touching any state (the
rejected call leaves the tree unchanged), while `File.Setxattr` returns
success as a silent no-op (the meta is returned unchanged, not an error)
and `Dir.Setxattr` performs no immutability check at all — its result is
identical to the mutable-mount behaviour. -/
theorem c4_immutable_mount_behaviour (now : String) (parentPublic : Bool)
    (cs : Children) (m : Meta) (d : TNode) (data req : List Nat)
    (off mode : Nat) (name value : String) :
    fileWrite true data off req = .eperm ∧
    dirCreate true now parentPublic cs name mode = .error .eperm ∧
    dirMkdir true now cs name = .error .eperm ∧
    dirRemove true cs name = .error .eperm ∧
    fileSetxattr true m name value = .ok m ∧
    (∀ immutable : Bool, dirSetxattr immutable d name value = dirSetxattr false d name value) :=
  ⟨rfl, rfl, rfl, rfl, rfl, fun _ => rfl⟩

/-! ### C8: the loadRoot decision table -/

/-- C8 counterexample: with matching local-mirror and live-remote
versions, `loadRoot` activates the remote Mount but returns without
assigning the working `Dir` (`f.root` stays nil; the caller in `main`
compensates afterwards), contradicting the claim that every successful
non-OutOfSync case sets `f.root` to the active mount's root. -/
theorem c8_equal_versions_leaves_root_unset :
    loadRoot false constNode7 "nr" [] none (some ⟨"r", 3, ""⟩) (some ⟨"r", 3, ""⟩) [] []
      = .ok c8EqState ∧
    c8EqState.remoteMount = some ⟨false, ⟨"r", 3, ""⟩, 7⟩ ∧
    c8EqState.rootDir ≠ some ((⟨false, ⟨"r", 3, ""⟩, 7⟩ : MountM).node) :=
  ⟨rfl, rfl, by decide⟩

/-- C8 amended: every successful `loadRoot` leaves exactly one active
Mount set (local or remote, never both and never neither), and the
working `Dir` is set to that mount's root node in every successful case
EXCEPT the equal-versions case (both local-mirror and live-remote exist
with the same version), where only the remote Mount is set and the
working `Dir` is left unassigned. -/
theorem c8_load_root_mounts (imm : Bool) (nodeOf : String → Nat) (newRootRef : String)
    (remoteVersions : List RootRec) (wipKv localKv remoteKv : Option RootRec)
    (wip0 mir0 : List (String × Nat)) (st : LoadState)
    (h : loadRoot imm nodeOf newRootRef remoteVersions wipKv localKv remoteKv wip0 mir0
      = .ok st) :
    ((st.localMount.isSome ∧ st.remoteMount = none) ∨
      (st.localMount = none ∧ st.remoteMount.isSome)) ∧
    (st.rootDir = (fsMount st.localMount st.remoteMount).map MountM.node ∨
      (st.rootDir = none ∧ wipWins wipKv localKv remoteKv = false ∧
        ∃ l r, localKv = some l ∧ remoteKv = some r ∧ l.version = r.version)) := by
  unfold loadRoot at h
  split at h
  next hw =>
    cases wipKv with
    | none => exact Except.noConfusion h
    | some w =>
      injection h with h
      subst h
      exact ⟨Or.inl ⟨rfl, rfl⟩, Or.inl rfl⟩
  next hw =>
    cases localKv with
    | none =>
      cases remoteKv with
      | none =>
        injection h with h
        subst h
        exact ⟨Or.inl ⟨rfl, rfl⟩, Or.inl rfl⟩
      | some r =>
        injection h with h
        subst h
        exact ⟨Or.inr ⟨rfl, rfl⟩, Or.inl rfl⟩
    | some l =>
      cases remoteKv with
      | none => exact Except.noConfusion h
      | some r =>
        replace h :
            (if l.version = r.version then
              (Except.ok ⟨none, some ⟨imm, l, nodeOf l.ref⟩, none, wip0, mir0⟩
                : Except LoadErr LoadState)
            else if l.version > r.version then .error .outOfSync
            else .ok ⟨none, some ⟨imm, r, nodeOf r.ref⟩, some (nodeOf r.ref), wip0,
              (r.ref, r.version) :: mir0⟩) = .ok st := h
        by_cases hv : l.version = r.version
        · rw [if_pos hv] at h
          injection h with h
          subst h
          refine ⟨Or.inr ⟨rfl, rfl⟩, Or.inr ⟨rfl, ?_, l, r, rfl, rfl, hv⟩⟩
          cases hwv : wipWins wipKv (some l) (some r) with
          | false => rfl
          | true => exact absurd hwv hw
        · rw [if_neg hv] at h
          by_cases hgt : l.version > r.version
          · rw [if_pos hgt] at h
            exact Except.noConfusion h
          · rw [if_neg hgt] at h
            injection h with h
            subst h
            exact ⟨Or.inr ⟨rfl, rfl⟩, Or.inl rfl⟩

/-- Witness for C8's amended statement: the WIP-wins case at concrete
records leaves exactly the local Mount active. -/
theorem c8_load_root_witness :
    (c8WipState.localMount.isSome ∧ c8WipState.remoteMount = none) ∨
      (c8WipState.localMount = none ∧ c8WipState.remoteMount.isSome) :=
  (c8_load_root_mounts false constNode7 "nr" [] (some ⟨"w", 9, ""⟩) none none [] []
    c8WipState rfl).1

end Blobfs
